import Mathlib

/-!
Verification development for the inventory reconciliation engine
(`StockSyncProcessor` in `logic.py`).

The Python code is shallowly embedded as executable Lean definitions:

* cell values are `Option String` (`none` models a pandas `NaN`), stock
  quantities are `Option ℚ` holding the result of `pd.to_numeric(...,
  errors := coerce)` (`none` models an unparseable cell, turned into `0`
  by `fillna(0)`);
* a loaded sales ledger is a `List SalesRow`, positional row index given
  by list position (index 0 is the header row; the engine filters on
  `index >= 1`); a stock snapshot is a `List StockRow` (row 0 header);
* the change tracker `modified_cells` is a `List (ℕ × ℕ)` of
  (row index, column position) pairs, the warnings the engine logs via
  its progress callback that matter for the specification are modelled
  as a `List Warn`;
* the three phases of `process_synchronization` are translated function
  by function from `_replace_material_codes`,
  `_sync_auxiliary_attributes` and `_sync_batch_numbers`.
-/


/-- Characters for which Python `str.isspace()` (and hence `str.strip()`)
returns true; this is the whitespace set used by `str.strip()` in
`_normalize_material_code`. -/
def pyIsSpace (c : Char) : Bool :=
  c == ' ' || c == '\t' || c == '\n' || c == '\r' || c == '\x0b' || c == '\x0c' ||
  c == '\x1c' || c == '\x1d' || c == '\x1e' || c == '\x1f' || c == '\x85' || c == '\xa0' ||
  c == '\u1680' || c == '\u2000' || c == '\u2001' || c == '\u2002' || c == '\u2003' ||
  c == '\u2004' || c == '\u2005' || c == '\u2006' || c == '\u2007' || c == '\u2008' ||
  c == '\u2009' || c == '\u200a' || c == '\u2028' || c == '\u2029' || c == '\u202f' ||
  c == '\u205f' || c == '\u3000'

/-- Python `str.strip()`: drop leading and trailing whitespace characters. -/
def pyStrip (s : String) : String :=
  (((s.toList.dropWhile pyIsSpace).reverse.dropWhile pyIsSpace).reverse).asString

/-- The two `str.replace` calls of `_normalize_material_code`: delete every
zero-width space (U+200B) and every non-breaking space (U+00A0). -/
def removeInvisible (s : String) : String :=
  (s.toList.filter (fun c => !(c == '\u200b' || c == '\xa0'))).asString

/-- `_normalize_material_code` (logic.py:230-236): a missing value (`pd.isna`)
becomes the empty string, otherwise the text is stripped and then the
invisible characters are removed, in that order. -/
def normalizeMaterialCode : Option String → String
  | none => ""
  | some s => removeInvisible (pyStrip s)

/-- Normalization applied to a plain (non-null) string, as done to the
mapping table's keys and values. -/
def normStr (s : String) : String := normalizeMaterialCode (some s)

/-- Python `str(x)` applied to a cell that may be `NaN`: `str(nan)` is the
literal text "nan". Used where the source calls `.astype(str)` or
`str(row[...])` without a `dropna`. -/
def strOrNan (c : Option String) : String := c.getD "nan"

/-- Python `code.split('.')` on the character list of a string: split into
dot-separated segments ("x.y".split gives two segments, "" gives one
empty segment, a trailing dot yields a trailing empty segment). -/
def splitDot : List Char → List (List Char)
  | [] => [[]]
  | x :: xs =>
    match splitDot xs with
    | [] => [[x]]
    | r :: rs => if x = '.' then [] :: r :: rs else (x :: r) :: rs

/-- The code-point ranges of the characters for which Python
`str.isdigit()` returns true: the Unicode decimal digits (category Nd)
together with the Numeric_Type=Digit characters such as superscripts,
extracted from the Unicode character database. -/
def pyDigitRanges : List (ℕ × ℕ) :=
  [(48, 57), (178, 179), (185, 185), (1632, 1641),
   (1776, 1785), (1984, 1993), (2406, 2415), (2534, 2543),
   (2662, 2671), (2790, 2799), (2918, 2927), (3046, 3055),
   (3174, 3183), (3302, 3311), (3430, 3439), (3558, 3567),
   (3664, 3673), (3792, 3801), (3872, 3881), (4160, 4169),
   (4240, 4249), (4969, 4977), (6112, 6121), (6160, 6169),
   (6470, 6479), (6608, 6618), (6784, 6793), (6800, 6809),
   (6992, 7001), (7088, 7097), (7232, 7241), (7248, 7257),
   (8304, 8304), (8308, 8313), (8320, 8329), (9312, 9320),
   (9332, 9340), (9352, 9360), (9450, 9450), (9461, 9469),
   (9471, 9471), (10102, 10110), (10112, 10120), (10122, 10130),
   (42528, 42537), (43216, 43225), (43264, 43273), (43472, 43481),
   (43504, 43513), (43600, 43609), (44016, 44025), (65296, 65305),
   (66720, 66729), (68160, 68163), (68912, 68921), (69216, 69224),
   (69714, 69722), (69734, 69743), (69872, 69881), (69942, 69951),
   (70096, 70105), (70384, 70393), (70736, 70745), (70864, 70873),
   (71248, 71257), (71360, 71369), (71472, 71481), (71904, 71913),
   (72016, 72025), (72784, 72793), (73040, 73049), (73120, 73129),
   (92768, 92777), (92864, 92873), (93008, 93017), (120782, 120831),
   (123200, 123209), (123632, 123641), (125264, 125273), (127232, 127242),
   (130032, 130041)]
/-- Python `c.isdigit()` for a single character: membership in one of
the digit code-point ranges. ASCII 0-9 is the first range; Arabic-Indic
digits, superscripts and the other Unicode digits are accepted too, as
in Python. -/
def pyIsDigit (c : Char) : Bool :=
  pyDigitRanges.any (fun p => decide (p.1 ≤ c.toNat ∧ c.toNat ≤ p.2))

/-- `_validate_material_code` (logic.py:238-251): six dot-separated
segments, each a nonempty digit string under Python `str.isdigit()`
(`"".isdigit()` is false in Python, hence the nonemptiness check). -/
def validateMaterialCode (code : String) : Bool :=
  if code = "" then false
  else
    let parts := splitDot code.toList
    parts.length == 6 && parts.all (fun p => !p.isEmpty && p.all pyIsDigit)

/-- Specification-side reading of the format rule: exactly six
dot-separated segments, each nonempty and consisting only of digit
characters in the program's sense (Python `str.isdigit()`). -/
def SixSegAllDigit (s : String) : Prop :=
  (splitDot s.toList).length = 6
    ∧ ∀ p ∈ splitDot s.toList, p ≠ [] ∧ ∀ c ∈ p, pyIsDigit c = true

instance (s : String) : Decidable (SixSegAllDigit s) := by
  unfold SixSegAllDigit; infer_instance

/-- Python dict assignment `d[k] = v` on the mapping table, represented as
an insertion-ordered association list: overwrite in place if the key is
present, else append at the end. -/
def insertMapping : List (String × String) → String → String → List (String × String)
  | [], k, v => [(k, v)]
  | p :: rest, k, v => if p.1 = k then (k, v) :: rest else p :: insertMapping rest k v

/-- Dictionary lookup in the mapping table. -/
def lookupMapping (tbl : List (String × String)) (k : String) : Option String :=
  (tbl.find? (fun p => p.1 == k)).map Prod.snd

/-- `set_material_mapping` (logic.py:131-154): returns the error message
(empty string on success) together with the resulting table; the
`_save_mapping_config` persistence side effect is outside the model. -/
def setMaterialMapping (tbl : List (String × String)) (old new : String) :
    String × List (String × String) :=
  if old = "" ∨ new = "" then ("物料编码不能为空", tbl)
  else if ¬ (validateMaterialCode old = true ∧ validateMaterialCode new = true) then
    ("物料编码格式不正确，应为 x.xx.x.xx.xx.xxx 格式", tbl)
  else ("", insertMapping tbl old new)

/-- One row of the loaded sales ledger, restricted to the columns the
engine reads or writes: DZ (material code, column 129), EC/ED (auxiliary
attributes, columns 132/133), FF/FG (batch numbers, columns 161/162) and
GJ (warehouse name, column 191). The alias column and the original
positional column always carry the same value in the source, so they are
represented by a single field. -/
structure SalesRow where
  dz : Option String
  ec : Option String
  ed : Option String
  ff : Option String
  fg : Option String
  gj : Option String
deriving DecidableEq

/-- One row of the stock snapshot: A (material code, column 0), E/F
(auxiliary attributes, columns 4/5), G (warehouse, column 6), H (batch
number, column 7) and K (available quantity, column 10). The `k` field
holds the numeric parse (`pd.to_numeric(..., errors = coerce)`) of the
cell; `none` models an absent or unparseable cell (NaN). -/
structure StockRow where
  a : Option String
  e : Option String
  f : Option String
  g : Option String
  h : Option String
  k : Option ℚ
deriving DecidableEq

/-- The run warnings of `process_synchronization` that the specification
talks about: the empty-mapping warning (logic.py:272) and the
batch-shortfall warning with its row count (logic.py:535). -/
inductive Warn where
  | emptyMapping : Warn
  | shortfall : ℕ → Warn
deriving DecidableEq

/-- Mutable engine state: the sales ledger rows, the change tracker
`modified_cells`, and the warnings logged so far in the current run. -/
structure ProcState where
  sales : List SalesRow
  modified : List (ℕ × ℕ)
  warns : List Warn
deriving DecidableEq

/-- Python `int()` applied to a (parsed) quantity: truncation toward
zero, as in `int(row[K_num])` at logic.py:507. The magnitude is the
integer part of the absolute value and the sign is restored, so
`truncQ (39/10) = 3` and `truncQ (-39/10) = -3`. -/
def truncQ (q : ℚ) : ℤ := q.num.sign * (q.num.natAbs / q.den : ℕ)

/-- `self.sales_df[DZ].astype(str)` (logic.py:311): every cell of the
material-code column becomes a string; a NaN becomes the text "nan". -/
def astypeStrDZ (st : ProcState) : ProcState :=
  { st with sales := st.sales.map fun r => { r with dz := some (strOrNan r.dz) } }

/-- Indices selected by the boolean mask of logic.py:328: data rows
(index at least 1) whose normalized material code equals the normalized
old code. The first argument of the recursion is the index of the first
row of the remaining list. -/
def matchedIdxs (oldN : String) : ℕ → List SalesRow → List ℕ
  | _, [] => []
  | i, r :: rs =>
    if 1 ≤ i ∧ normalizeMaterialCode r.dz = oldN then i :: matchedIdxs oldN (i + 1) rs
    else matchedIdxs oldN (i + 1) rs

/-- The assignment `self.sales_df.loc[mask_old, DZ] = new_code`
(logic.py:345 and 352): every masked row receives the literal new code. -/
def rewriteDZ (oldN new : String) : ℕ → List SalesRow → List SalesRow
  | _, [] => []
  | i, r :: rs =>
    (if 1 ≤ i ∧ normalizeMaterialCode r.dz = oldN then { r with dz := some new } else r)
      :: rewriteDZ oldN new (i + 1) rs

/-- The body of the per-pair loop of `_replace_material_codes`
(logic.py:313-373): skip an empty or self mapping, skip a pair matching
no row, otherwise rewrite the masked rows and append one tracker entry
(row, 129) per rewritten row. -/
def replacePass (s : ProcState) (old new : String) : ProcState :=
  let oldN := normStr old
  let newN := normStr new
  if oldN = "" ∨ oldN = newN then s
  else
    let matched := matchedIdxs oldN 0 s.sales
    if matched.isEmpty then s
    else
      { s with
        sales := rewriteDZ oldN new 0 s.sales
        modified := s.modified ++ matched.map (fun i => (i, 129)) }

/-- `_replace_material_codes` (logic.py:302-381): convert the DZ column
to strings, then run one replacement pass per mapping pair, in mapping
insertion order. -/
def replaceMaterialCodes (m : List (String × String)) (st : ProcState) : ProcState :=
  m.foldl (fun s p => replacePass s p.1 p.2) (astypeStrDZ st)

/-- Replace the row at a position by a function of itself (a no-op when
the position is out of range). -/
def modifyRow : List SalesRow → ℕ → (SalesRow → SalesRow) → List SalesRow
  | [], _, _ => []
  | r :: rs, 0, f => f r :: rs
  | r :: rs, n + 1, f => r :: modifyRow rs n f

/-- The guarded tracker append used by phases 2 and 3
(logic.py:445-446, 451-452, 529-532): append the pair only if it is not
already recorded. -/
def track (ms : List (ℕ × ℕ)) (p : ℕ × ℕ) : List (ℕ × ℕ) :=
  if p ∈ ms then ms else ms ++ [p]

/-- The value stored in `stock_aux_map` (logic.py:401-405): the E and F
attribute texts (empty string for NaN) and the numeric quantity. -/
structure Aux where
  e : String
  f : String
  k : ℚ
deriving DecidableEq

/-- `K_num` of a stock row: the numeric parse with `fillna(0)`
(logic.py:394, 466). -/
def knumQ (r : StockRow) : ℚ := r.k.getD 0

/-- The auxiliary-attribute record extracted from a stock row. -/
def auxOf (r : StockRow) : Aux := ⟨r.e.getD "", r.f.getD "", knumQ r⟩

/-- One iteration of the `stock_aux_map` building loop
(logic.py:395-405): skip rows with an empty normalized code or empty
warehouse, insert when the key is absent, overwrite when the new row has
a strictly larger quantity. Since the dictionary is only ever looked up,
it is modelled as a function from keys to optional values. -/
def auxStep (m : String × String → Option Aux) (r : StockRow) : String × String → Option Aux :=
  let c := normalizeMaterialCode r.a
  let w := pyStrip (strOrNan r.g)
  if c = "" ∨ w = "" then m
  else fun key =>
    if key = (c, w) then
      match m key with
      | none => some (auxOf r)
      | some v => if v.k < knumQ r then some (auxOf r) else some v
    else m key

/-- `stock_aux_map` (logic.py:392-405), built over the data rows of the
stock snapshot (header row dropped by `iloc[1:]`). -/
def buildAuxMap (stock : List StockRow) : String × String → Option Aux :=
  (stock.drop 1).foldl auxStep (fun _ => none)

/-- Indices selected by the group mask of logic.py:418-422 and 477-481:
data rows whose normalized material code is the group's code and whose
stringified, stripped warehouse equals the group's warehouse. -/
def groupIdxsAux (nN w : String) : ℕ → List SalesRow → List ℕ
  | _, [] => []
  | i, r :: rs =>
    if 1 ≤ i ∧ normalizeMaterialCode r.dz = nN ∧ pyStrip (strOrNan r.gj) = w then
      i :: groupIdxsAux nN w (i + 1) rs
    else groupIdxsAux nN w (i + 1) rs

/-- Group mask indices, starting at row 0 of the ledger. -/
def groupIdxs (sales : List SalesRow) (nN w : String) : List ℕ :=
  groupIdxsAux nN w 0 sales

/-- The stripped warehouse texts of the data rows carrying the group's
material code, in row order, NaN cells dropped (`dropna` before
`astype(str).str.strip()`, logic.py:415 and 474). -/
def gjValsAux (nN : String) : ℕ → List SalesRow → List String
  | _, [] => []
  | i, r :: rs =>
    if 1 ≤ i ∧ normalizeMaterialCode r.dz = nN then
      match r.gj with
      | some g => pyStrip g :: gjValsAux nN (i + 1) rs
      | none => gjValsAux nN (i + 1) rs
    else gjValsAux nN (i + 1) rs

/-- Pandas `unique()`: deduplicate keeping first-occurrence order. -/
def dedupFirst (l : List String) : List String :=
  l.foldl (fun acc x => if x ∈ acc then acc else acc ++ [x]) []

/-- The warehouse list of a material code (logic.py:415, 474). -/
def whListFor (sales : List SalesRow) (nN : String) : List String :=
  dedupFirst (gjValsAux nN 0 sales)

/-- Write the EC attribute of one ledger row and record (row, 132) in the
tracker unless already recorded (logic.py:443-446). -/
def setEC (s : ProcState) (i : ℕ) (v : String) : ProcState :=
  { s with
    sales := modifyRow s.sales i (fun r => { r with ec := some v })
    modified := track s.modified (i, 132) }

/-- Write the ED attribute of one ledger row and record (row, 133) in the
tracker unless already recorded (logic.py:449-452). -/
def setED (s : ProcState) (i : ℕ) (v : String) : ProcState :=
  { s with
    sales := modifyRow s.sales i (fun r => { r with ed := some v })
    modified := track s.modified (i, 133) }

/-- One (code, warehouse) group of `_sync_auxiliary_attributes`
(logic.py:417-454): recompute the mask, skip an empty group, skip a
group with no stock match (warning logged via the progress channel
only), otherwise write the matched E value into EC of every group row
and then the F value into ED of every group row. -/
def syncAuxGroup (am : String × String → Option Aux) (nN w : String) (s : ProcState) :
    ProcState :=
  let idxs := groupIdxs s.sales nN w
  if idxs.isEmpty then s
  else
    match am (nN, w) with
    | none => s
    | some v =>
      let s1 := idxs.foldl (fun acc i => setEC acc i v.e) s
      idxs.foldl (fun acc i => setED acc i v.f) s1

/-- The per-new-code loop body of `_sync_auxiliary_attributes`
(logic.py:411-454). -/
def syncAuxCode (am : String × String → Option Aux) (s : ProcState) (nc : String) : ProcState :=
  let nN := normStr nc
  (whListFor s.sales nN).foldl (fun acc w => syncAuxGroup am nN w acc) s

/-- `_sync_auxiliary_attributes` (logic.py:384-456): iterate over the
first-occurrence-deduplicated new codes of the mapping
(`dict.fromkeys(self.material_mapping.values())`). -/
def syncAuxiliaryAttributes (m : List (String × String)) (stock : List StockRow)
    (st : ProcState) : ProcState :=
  let am := buildAuxMap stock
  (dedupFirst (m.map Prod.snd)).foldl (fun s nc => syncAuxCode am s nc) st

/-- Stable insertion into a list sorted by quantity descending: the
inserted row goes before the first strictly smaller row, after any row
with an equal or larger quantity. -/
def insertByK (r : StockRow) : List StockRow → List StockRow
  | [] => [r]
  | x :: xs => if knumQ r < knumQ x then x :: insertByK r xs else r :: x :: xs

/-- The sort `stock_rows.sort_values(by = K_num, ascending = False)`
(logic.py:503), modelled as a stable descending sort. Pandas uses a
non-stable quicksort by default, so the relative order of rows with
equal quantities is implementation-defined there; this embedding fixes
the stable order, and every theorem whose truth could depend on the
order of ties either avoids the sort or takes the order as a
hypothesis. -/
def sortByKDesc (l : List StockRow) : List StockRow := l.foldr insertByK []

/-- The stock rows matching a (code, warehouse) group (logic.py:494-497),
over the data rows of the snapshot. -/
def stockGroupRows (stock : List StockRow) (nN w : String) : List StockRow :=
  (stock.drop 1).filter
    (fun r => decide (normalizeMaterialCode r.a = nN ∧ pyStrip (strOrNan r.g) = w))

/-- `batch_info` (logic.py:504-508): batch text (empty for NaN) and
truncated integer quantity of each matching stock row, sorted by
quantity descending. -/
def batchInfoOf (rows : List StockRow) : List (String × ℤ) :=
  (sortByKDesc rows).map (fun r => (r.h.getD "", truncQ (knumQ r)))

/-- Assign a batch number to one ledger row: write FF and FG and record
(row, 161) and (row, 162) in the tracker unless already recorded
(logic.py:523-532). -/
def writeBatchRow (s : ProcState) (b : String) (i : ℕ) : ProcState :=
  { s with
    sales := modifyRow s.sales i (fun r => { r with ff := some b, fg := some b })
    modified := track (track s.modified (i, 161)) (i, 162) }

/-- The allocation loop of `_sync_batch_numbers` (logic.py:513-533):
walk the batch list; stop when no ledger rows are pending; otherwise
assign `min(quantity, pending)` rows to the current batch (a negative
quantity assigns none, like Python's empty `range`). Returns the final
state, the pending (unassigned) row indices, and the per-batch assigned
row counts. -/
def allocGo : ProcState → List ℕ → List (String × ℤ) → ProcState × List ℕ × List ℕ
  | s, pending, [] => (s, pending, [])
  | s, pending, (b, q) :: rest =>
    if pending.isEmpty then (s, pending, ((b, q) :: rest).map fun _ => 0)
    else
      let n := (min q (pending.length : ℤ)).toNat
      let s1 := (pending.take n).foldl (fun acc i => writeBatchRow acc b i) s
      let out := allocGo s1 (pending.drop n) rest
      (out.1, out.2.1, n :: out.2.2)

/-- Allocation for one group followed by the shortfall check
(logic.py:534-535): if rows remain unassigned, log a shortfall warning
naming their count. -/
def allocateBatches (s : ProcState) (idxs : List ℕ) (bs : List (String × ℤ)) : ProcState :=
  let out := allocGo s idxs bs
  if out.2.1.isEmpty then out.1
  else { out.1 with warns := out.1.warns ++ [Warn.shortfall out.2.1.length] }

/-- One (code, warehouse) group of `_sync_batch_numbers`
(logic.py:476-540): skip an empty group, skip a group with no matching
stock rows, otherwise allocate the sorted batches. -/
def syncBatchGroup (stock : List StockRow) (nN w : String) (s : ProcState) : ProcState :=
  let idxs := groupIdxs s.sales nN w
  if idxs.isEmpty then s
  else
    let rows := stockGroupRows stock nN w
    if rows.isEmpty then s
    else allocateBatches s idxs (batchInfoOf rows)

/-- The per-new-code loop body of `_sync_batch_numbers`
(logic.py:471-540). -/
def syncBatchCode (stock : List StockRow) (s : ProcState) (nc : String) : ProcState :=
  let nN := normStr nc
  (whListFor s.sales nN).foldl (fun acc w => syncBatchGroup stock nN w acc) s

/-- `_sync_batch_numbers` (logic.py:459-542). -/
def syncBatchNumbers (m : List (String × String)) (stock : List StockRow)
    (st : ProcState) : ProcState :=
  (dedupFirst (m.map Prod.snd)).foldl (fun s nc => syncBatchCode stock s nc) st

/-- `process_synchronization` (logic.py:256-300): warn when the mapping
is empty, clear the change tracker, run phase 1 only when the mapping is
nonempty, then always run phases 2 and 3. The final save/highlight step
acts outside the modelled state. -/
def processSynchronization (m : List (String × String)) (stock : List StockRow)
    (st : ProcState) : ProcState :=
  let s0 : ProcState :=
    { sales := st.sales, modified := [],
      warns := if m.isEmpty then [Warn.emptyMapping] else [] }
  let s1 := if m.isEmpty then s0 else replaceMaterialCodes m s0
  let s2 := syncAuxiliaryAttributes m stock s1
  syncBatchNumbers m stock s2

/-- Ledger row with only a material code and a warehouse, all other
tracked cells empty. -/
def mkSales (dz gj : Option String) : SalesRow := ⟨dz, none, none, none, none, gj⟩

/-- A blank header row for either sheet. -/
def hdrSalesRow : SalesRow := ⟨none, none, none, none, none, none⟩

/-- A blank stock header row. -/
def hdrStockRow : StockRow := ⟨none, none, none, none, none, none⟩

/-- The specification's end-to-end scenario: four data rows carrying the
old code in warehouse W1 (plus the header row). -/
def demoLedger : List SalesRow :=
  [hdrSalesRow,
   mkSales (some "8.01.1.01.01.206") (some "W1"),
   mkSales (some "8.01.1.01.01.206") (some "W1"),
   mkSales (some "8.01.1.01.01.206") (some "W1"),
   mkSales (some "8.01.1.01.01.206") (some "W1")]

/-- The scenario's snapshot: batch B1 with quantity 3 and batch B2 with
quantity 5 for the new code in W1. -/
def demoStock : List StockRow :=
  [hdrStockRow,
   ⟨some "8.01.1.01.01.233", some "e1", some "f1", some "W1", some "B1", some 3⟩,
   ⟨some "8.01.1.01.01.233", some "e2", some "f2", some "W1", some "B2", some 5⟩]

/-- The scenario's single mapping pair. -/
def demoMapping : List (String × String) := [("8.01.1.01.01.206", "8.01.1.01.01.233")]

/-- Initial engine state for the end-to-end scenario. -/
def demoState : ProcState := ⟨demoLedger, [], []⟩

/-- A post-run data row of the end-to-end scenario. -/
def demoRowAfter : SalesRow :=
  ⟨some "8.01.1.01.01.233", some "e2", some "f2", some "B2", some "B2", some "W1"⟩

/-- Ledger for the chained-mapping scenarios: one data row with code
1.1.1.1.1.1 in warehouse W. -/
def chainLedger : List SalesRow := [hdrSalesRow, mkSales (some "1.1.1.1.1.1") (some "W")]

/-- Mapping whose first pair's new code is the second pair's old code. -/
def chainMapping : List (String × String) :=
  [("1.1.1.1.1.1", "2.2.2.2.2.2"), ("2.2.2.2.2.2", "3.3.3.3.3.3")]

/-- Initial state for the chained-mapping scenario. -/
def chainState : ProcState := ⟨chainLedger, [], []⟩

/-- Mapping whose second pair's new code is the first pair's old code, so
a second application of phase 1 rewrites again. -/
def swapMapping : List (String × String) :=
  [("2.2.2.2.2.2", "3.3.3.3.3.3"), ("1.1.1.1.1.1", "2.2.2.2.2.2")]

/-- Initial state for the re-application scenario. -/
def swapState : ProcState := ⟨chainLedger, [], []⟩

/-- Stock snapshot for the resync-only scenario: a batch that matches the
ledger row's code and warehouse. -/
def resyncStock : List StockRow :=
  [hdrStockRow, ⟨some "1.1.1.1.1.1", some "e", some "f", some "W", some "B", some 1⟩]

/-- Right strip on character lists, the second half of `pyStrip`. -/
def rstripL (l : List Char) : List Char := (l.reverse.dropWhile pyIsSpace).reverse

/-- Ledger whose data row carries a leading-space variant of a code, used
to exercise the literal-write clause of phase 1. -/
def c8State : ProcState :=
  ⟨[hdrSalesRow, mkSales (some " 1.1.1.1.1.1") (some "W")], [], []⟩

/-- Specification of the per-batch assigned counts: walk the quantity
list with the remaining row demand. -/
def countsAux : ℕ → List ℤ → List ℕ
  | _, [] => []
  | d, q :: qs =>
    let c := (min q (d : ℤ)).toNat
    c :: countsAux (d - c) qs

/-- The predicate a stock row must satisfy to feed the aux-map entry of
key (c, w): its normalized code and stripped warehouse equal the key and
the key components are nonempty (rows with empty code or warehouse are
skipped by the building loop). -/
def rowMatches (c w : String) (r : StockRow) : Bool :=
  decide (normalizeMaterialCode r.a = c ∧ pyStrip (strOrNan r.g) = w ∧ c ≠ "" ∧ w ≠ "")

/-- The stock data rows feeding the aux-map entry of (c, w), in snapshot
order. -/
def matchingStockRows (stock : List StockRow) (c w : String) : List StockRow :=
  (stock.drop 1).filter (rowMatches c w)

/-- The accumulator update of the aux-map building loop restricted to a
single key: keep the current winner unless the new row's quantity is
strictly larger (logic.py:400). -/
def pickAux (a : Option Aux) (r : StockRow) : Option Aux :=
  match a with
  | none => some (auxOf r)
  | some v => if v.k < knumQ r then some (auxOf r) else some v

/-- Snapshot with two batches tied at the maximal quantity, to exercise
the first-wins tie-break. -/
def tieStock : List StockRow :=
  [hdrStockRow,
   ⟨some "1.1.1.1.1.1", some "ea", some "fa", some "W", some "T1", some 5⟩,
   ⟨some "1.1.1.1.1.1", some "eb", some "fb", some "W", some "T2", some 5⟩]

/-- The normalized material code of ledger row i (empty when the row or
the cell is absent). -/
def dzNormAt (sales : List SalesRow) (i : ℕ) : String :=
  normalizeMaterialCode ((sales.get? i).bind SalesRow.dz)

/-- All material-code cells of the ledger are present strings (the state
after `astype(str)`). -/
def AllDZSome (sales : List SalesRow) : Prop := ∀ r ∈ sales, r.dz.isSome

/-- Mapping whose new code is unrelated to any old code, satisfying the
separation hypothesis of the amended C9. -/
def w9Mapping : List (String × String) := [("1.1.1.1.1.1", "2.2.2.2.2.2")]

/-- Phase-1 tracker invariant: the tracker is duplicate-free and every
tracked row's current normalized code lies outside the old-code set O
(such a row has been rewritten to a new code, or was tracked for another
reason; either way no later pass can rewrite it again). -/
def TrackInv (O : List String) (s : ProcState) : Prop :=
  s.modified.Nodup ∧ ∀ p ∈ s.modified, dzNormAt s.sales p.1 ∉ O

/-- Ledger and snapshot for the C2 witness run. -/
def w2Stock : List StockRow :=
  [hdrStockRow, ⟨some "2.2.2.2.2.2", some "e", some "f", some "W", some "B", some 2⟩]

/-- Separated one-pair mapping for the C2 witness run. -/
def w2Mapping : List (String × String) := [("1.1.1.1.1.1", "2.2.2.2.2.2")]

theorem validateMaterialCode_iff (s : String) :
    validateMaterialCode s = true ↔ SixSegAllDigit s := by
  by_cases h : s = ""
  · subst h
    decide
  · unfold validateMaterialCode SixSegAllDigit
    simp only [h, if_false]
    rw [Bool.and_eq_true, beq_iff_eq, List.all_eq_true]
    constructor
    · rintro ⟨h6, hall⟩
      refine ⟨h6, fun p hp => ?_⟩
      have hz := hall p hp
      rw [Bool.and_eq_true, List.all_eq_true] at hz
      refine ⟨by simpa using hz.1, hz.2⟩
    · rintro ⟨h6, hall⟩
      refine ⟨h6, fun p hp => ?_⟩
      rw [Bool.and_eq_true, List.all_eq_true]
      exact ⟨by simpa using (hall p hp).1, (hall p hp).2⟩

theorem lookupMapping_insertMapping (tbl : List (String × String)) (k v : String) :
    lookupMapping (insertMapping tbl k v) k = some v := by
  induction tbl with
  | nil => simp [insertMapping, lookupMapping]
  | cons p rest ih =>
    by_cases h : p.1 = k
    · simp [insertMapping, lookupMapping, h]
    · have hb : (p.1 == k) = false := by simpa using h
      simp only [insertMapping, h, if_false]
      unfold lookupMapping at ih ⊢
      rw [List.find?_cons_of_neg _ (by simp [hb])]
      exact ih

/-- C4. Counterexample to the claimed end-to-end outcome: on the spec's
own scenario the run assigns batch B2 (the larger batch, because the
batch list is sorted by quantity descending and consumed largest first)
to the first ledger row — not B1 — and the change tracker ends with 20
entries (4 material-code, 8 attribute, and 8 batch entries, because both
batch columns FF and FG are tracked per row), not 16. -/
theorem spec_c4_counterexample :
    ((processSynchronization demoMapping demoStock demoState).sales.get? 1).map SalesRow.ff
        = some (some "B2") ∧
      (processSynchronization demoMapping demoStock demoState).modified.length = 20 := by
  decide

/-- C4 (amended). On the end-to-end scenario the run sets all four rows'
material code to the new code, copies B2's attributes onto all four
rows, assigns batch B2 to all four rows (B2 has quantity 5 and is
consumed first by the descending sort), logs no warning, and leaves the
change tracker with exactly 20 duplicate-free entries: 4 material-code,
4 EC, 4 ED, 4 FF and 4 FG entries. -/
theorem spec_c4_amended :
    processSynchronization demoMapping demoStock demoState =
      { sales := [⟨some "nan", none, none, none, none, none⟩,
                  demoRowAfter, demoRowAfter, demoRowAfter, demoRowAfter],
        modified := [(1, 129), (2, 129), (3, 129), (4, 129),
                     (1, 132), (2, 132), (3, 132), (4, 132),
                     (1, 133), (2, 133), (3, 133), (4, 133),
                     (1, 161), (1, 162), (2, 161), (2, 162),
                     (3, 161), (3, 162), (4, 161), (4, 162)],
        warns := [] } ∧
      (processSynchronization demoMapping demoStock demoState).modified.Nodup := by
  decide

/-- C2. Counterexample: with the chained mapping 1.1.1.1.1.1 →
2.2.2.2.2.2, 2.2.2.2.2.2 → 3.3.3.3.3.3 the single data row is rewritten
by both pairs of the code-replacement phase, which appends (1, 129) to
the change tracker twice — phase 1 has no duplicate guard — so after a
complete run the tracker does contain a duplicate pair. -/
theorem spec_c2_counterexample :
    ¬ (processSynchronization chainMapping [hdrStockRow] chainState).modified.Nodup := by
  decide

/-- C9. Counterexample to phase-1 idempotence: with the mapping listed as
2.2.2.2.2.2 → 3.3.3.3.3.3 then 1.1.1.1.1.1 → 2.2.2.2.2.2, the first
application turns the data row into 2.2.2.2.2.2; the second application
then matches the first pair, rewrites the cell to 3.3.3.3.3.3 and
appends a second tracker entry, so the second run both changes a cell
and grows the tracker. -/
theorem spec_c9_counterexample :
    (replaceMaterialCodes swapMapping (replaceMaterialCodes swapMapping swapState)).modified
        = [(1, 129), (1, 129)] ∧
      (replaceMaterialCodes swapMapping (replaceMaterialCodes swapMapping swapState)).sales
        ≠ (replaceMaterialCodes swapMapping swapState).sales := by
  decide

/-- C3. Counterexample to the resync-only reading: with both sheets
loaded, an empty mapping, a ledger data row already carrying code
1.1.1.1.1.1 in warehouse W, and a matching stock batch B, the run
mutates nothing — the batch cell stays empty and the tracker stays empty
— because phases 2 and 3 iterate over the mapping's new-code values, not
over the codes present in the ledger. -/
theorem spec_c3_counterexample :
    (processSynchronization [] resyncStock chainState).modified = [] ∧
      ((processSynchronization [] resyncStock chainState).sales.get? 1).map SalesRow.ff
        = some none := by
  decide

/-- C3 (amended). With an empty Mapping Table the run logs the
empty-mapping warning and skips the code-replacement phase; the
attribute-sync and batch-allocation phases are still invoked, but since
they derive their work list from the mapping's new-code values they
perform no mutation at all: for every stock snapshot and every initial
state the run returns the ledger unchanged, an empty change tracker and
exactly the empty-mapping warning. -/
theorem spec_c3_empty_mapping (stock : List StockRow) (st : ProcState) :
    processSynchronization [] stock st =
      { sales := st.sales, modified := [], warns := [Warn.emptyMapping] } := rfl

theorem dropWhile_append_all {p : Char → Bool} (l1 l2 : List Char) (h : l1.all p = true) :
    List.dropWhile p (l1 ++ l2) = List.dropWhile p l2 := by
  rw [List.dropWhile_append]
  have hnil : List.dropWhile p l1 = [] := by
    rw [List.dropWhile_eq_nil_iff]
    intro x hx
    exact List.all_eq_true.mp h x hx
  simp [hnil]

theorem dropWhile_all_nil {p : Char → Bool} (l : List Char) (h : l.all p = true) :
    List.dropWhile p l = [] := by
  rw [List.dropWhile_eq_nil_iff]
  intro x hx
  exact List.all_eq_true.mp h x hx

theorem pyStrip_toList (s : String) :
    (pyStrip s).toList = rstripL (s.toList.dropWhile pyIsSpace) := by
  unfold pyStrip rstripL
  exact List.toList_asString _

theorem rstripL_append_all (l post : List Char) (h : post.all pyIsSpace = true) :
    rstripL (l ++ post) = rstripL l := by
  unfold rstripL
  rw [List.reverse_append, dropWhile_append_all _ _ (by simpa using h)]

theorem pyStrip_pad (pre post : List Char) (s : String)
    (h1 : pre.all pyIsSpace = true) (h2 : post.all pyIsSpace = true) :
    pyStrip ((pre ++ s.toList ++ post).asString) = pyStrip s := by
  have key : (pyStrip ((pre ++ s.toList ++ post).asString)).toList = (pyStrip s).toList := by
    rw [pyStrip_toList, pyStrip_toList, List.toList_asString, List.append_assoc,
      dropWhile_append_all _ _ h1]
    by_cases hl : List.dropWhile pyIsSpace s.toList = []
    · rw [List.dropWhile_append, hl, dropWhile_all_nil _ h2]
      simp
    · rw [List.dropWhile_append]
      have hne : (List.dropWhile pyIsSpace s.toList).isEmpty = false := by
        simpa [List.isEmpty_iff] using hl
      rw [hne]
      simp only [Bool.false_eq_true, if_false]
      exact rstripL_append_all _ _ h2
  calc pyStrip ((pre ++ s.toList ++ post).asString)
      = (pyStrip ((pre ++ s.toList ++ post).asString)).toList.asString := by
        rw [String.asString_toList]
    _ = (pyStrip s).toList.asString := by rw [key]
    _ = pyStrip s := by rw [String.asString_toList]

theorem pyStrip_sublist (s : String) : (pyStrip s).toList.Sublist s.toList := by
  rw [pyStrip_toList]
  have h1 : (s.toList.dropWhile pyIsSpace).Sublist s.toList := List.dropWhile_sublist _
  have h2 : ((s.toList.dropWhile pyIsSpace).reverse.dropWhile pyIsSpace).Sublist
      (s.toList.dropWhile pyIsSpace).reverse := List.dropWhile_sublist _
  have h3 := h2.reverse
  rw [List.reverse_reverse] at h3
  exact h3.trans h1

theorem normalizeMaterialCode_sublist (s : String) :
    (normalizeMaterialCode (some s)).toList.Sublist s.toList := by
  show (removeInvisible (pyStrip s)).toList.Sublist s.toList
  unfold removeInvisible
  rw [List.toList_asString]
  exact (List.filter_sublist _).trans (pyStrip_sublist s)

theorem matchedIdxs_ge (oldN : String) :
    ∀ (l : List SalesRow) (i : ℕ), ∀ j ∈ matchedIdxs oldN i l, i ≤ j := by
  intro l
  induction l with
  | nil => intro i j hj; cases hj
  | cons r rs ih =>
    intro i j hj
    unfold matchedIdxs at hj
    by_cases hc : 1 ≤ i ∧ normalizeMaterialCode r.dz = oldN
    · rw [if_pos hc] at hj
      rcases List.mem_cons.mp hj with h | h
      · omega
      · have := ih (i + 1) j h; omega
    · rw [if_neg hc] at hj
      have := ih (i + 1) j hj; omega

theorem matchedIdxs_mem (oldN : String) :
    ∀ (l : List SalesRow) (i : ℕ), ∀ j ∈ matchedIdxs oldN i l,
      ∃ r, l.get? (j - i) = some r ∧ 1 ≤ j ∧ normalizeMaterialCode r.dz = oldN := by
  intro l
  induction l with
  | nil => intro i j hj; cases hj
  | cons r rs ih =>
    intro i j hj
    unfold matchedIdxs at hj
    by_cases hc : 1 ≤ i ∧ normalizeMaterialCode r.dz = oldN
    · rw [if_pos hc] at hj
      rcases List.mem_cons.mp hj with h | h
      · subst h
        exact ⟨r, by simp, hc.1, hc.2⟩
      · have hge := matchedIdxs_ge oldN rs (i + 1) j h
        obtain ⟨r0, hr0, h1, h2⟩ := ih (i + 1) j h
        refine ⟨r0, ?_, h1, h2⟩
        have : j - i = (j - (i + 1)) + 1 := by omega
        rw [this]
        simpa using hr0
    · rw [if_neg hc] at hj
      have hge := matchedIdxs_ge oldN rs (i + 1) j hj
      obtain ⟨r0, hr0, h1, h2⟩ := ih (i + 1) j hj
      refine ⟨r0, ?_, h1, h2⟩
      have : j - i = (j - (i + 1)) + 1 := by omega
      rw [this]
      simpa using hr0

theorem rewriteDZ_get? (oldN nv : String) :
    ∀ (l : List SalesRow) (i j : ℕ),
      (rewriteDZ oldN nv i l).get? j = (l.get? j).map
        (fun r => if 1 ≤ i + j ∧ normalizeMaterialCode r.dz = oldN
                  then { r with dz := some nv } else r) := by
  intro l
  induction l with
  | nil => intro i j; simp [rewriteDZ]
  | cons r rs ih =>
    intro i j
    cases j with
    | zero => simp [rewriteDZ]
    | succ j' =>
      show (rewriteDZ oldN nv (i + 1) rs).get? j' = _
      rw [ih (i + 1) j']
      have : i + 1 + j' = i + (j' + 1) := by omega
      simp [this]

/-- C8. Counterexample: the normalizer strips whitespace before removing
the zero-width characters, so a zero-width space that shields ordinary
whitespace at the boundary leaves that whitespace in the output: the
cell text consisting of a zero-width space, a space and "1.1" normalizes
to " 1.1" — its leading whitespace is not stripped — and therefore does
not compare equal to "1.1" although the two differ only by a zero-width
space and boundary whitespace. -/
theorem spec_c8_counterexample :
    normalizeMaterialCode (some "​ 1.1") = " 1.1" ∧
      (normalizeMaterialCode (some "​ 1.1")).toList.head? = some ' ' ∧
      normalizeMaterialCode (some "​ 1.1") ≠ normalizeMaterialCode (some "1.1") := by
  decide

/-- C8 (amended). The Code Normalizer maps an absent cell to the empty
string and otherwise strips leading/trailing whitespace first and then
removes every zero-width-space and non-breaking-space character, in that
order — so whitespace uncovered at the boundary by the removal step is
kept (see the counterexample). It only ever deletes characters (the
output is a subsequence of the input, so internal dots and digits are
never altered), codes differing only by leading/trailing whitespace
padding compare equal, and the value phase 1 writes into a replaced
ledger cell is the literal caller-supplied new-code string. -/
theorem spec_c8_amended :
    (∀ s, normalizeMaterialCode (some s) = removeInvisible (pyStrip s)) ∧
      normalizeMaterialCode none = "" ∧
      (∀ s, (normalizeMaterialCode (some s)).toList.Sublist s.toList) ∧
      (∀ (pre post : List Char) (s : String),
        pre.all pyIsSpace = true → post.all pyIsSpace = true →
        normalizeMaterialCode (some ((pre ++ s.toList ++ post).asString))
          = normalizeMaterialCode (some s)) ∧
      (∀ (s : ProcState) (o n : String), normStr o ≠ "" → normStr o ≠ normStr n →
        ∀ i ∈ matchedIdxs (normStr o) 0 s.sales,
          ((replacePass s o n).sales.get? i).map SalesRow.dz = some (some n)) := by
  refine ⟨fun s => rfl, rfl, normalizeMaterialCode_sublist, ?_, ?_⟩
  · intro pre post s h1 h2
    show removeInvisible (pyStrip _) = removeInvisible (pyStrip _)
    rw [pyStrip_pad pre post s h1 h2]
  · intro s o n h1 h2 i hi
    have hcond : ¬ (normStr o = "" ∨ normStr o = normStr n) := by
      rintro (h | h) <;> [exact h1 h; exact h2 h]
    have hne : (matchedIdxs (normStr o) 0 s.sales).isEmpty = false := by
      simpa [List.isEmpty_iff] using List.ne_nil_of_mem hi
    unfold replacePass
    simp only [hcond, if_false, hne, Bool.false_eq_true]
    rw [rewriteDZ_get? (normStr o) n s.sales 0 i]
    obtain ⟨r, hr, hge, hmatch⟩ := matchedIdxs_mem (normStr o) s.sales 0 i hi
    simp only [Nat.sub_zero] at hr
    rw [hr]
    simp [hge, hmatch]

/-- C8 witness: the amended theorem applied to concrete inputs — the
padding clause at a space-padded "1.1" and the literal-write clause at a
ledger whose cell is a space-padded code. -/
theorem spec_c8_witness :
    ((replacePass c8State "1.1.1.1.1.1" "2.2.2.2.2.2").sales.get? 1).map SalesRow.dz
        = some (some "2.2.2.2.2.2") ∧
      normalizeMaterialCode (some (([' '] ++ "1.1".toList ++ [' ']).asString))
        = normalizeMaterialCode (some "1.1") :=
  ⟨spec_c8_amended.2.2.2.2 c8State "1.1.1.1.1.1" "2.2.2.2.2.2" (by decide) (by decide) 1
      (by decide),
    spec_c8_amended.2.2.2.1 [' '] [' '] "1.1" (by decide) (by decide)⟩

/-- C7. The single-pair mapping insert returns a nonempty error message
and leaves the table unchanged whenever either code is empty or fails
the six-dot-separated-all-digit-segment format (digit in the program's
sense, Python `str.isdigit()`, which also accepts non-ASCII digit
characters); for two well-formed codes it succeeds (empty error
message) and looking up the old code in the resulting table yields the
new code. -/
theorem spec_c7_set_mapping (tbl : List (String × String)) (old new : String) :
    (¬ (SixSegAllDigit old ∧ SixSegAllDigit new) →
        (setMaterialMapping tbl old new).1 ≠ "" ∧ (setMaterialMapping tbl old new).2 = tbl) ∧
      (SixSegAllDigit old → SixSegAllDigit new →
        (setMaterialMapping tbl old new).1 = "" ∧
          lookupMapping (setMaterialMapping tbl old new).2 old = some new) := by
  constructor
  · intro h
    unfold setMaterialMapping
    by_cases he : old = "" ∨ new = ""
    · rw [if_pos he]
      exact ⟨by show ("物料编码不能为空" : String) ≠ ""; decide, rfl⟩
    · rw [if_neg he]
      have hv : ¬ (validateMaterialCode old = true ∧ validateMaterialCode new = true) := by
        rw [validateMaterialCode_iff, validateMaterialCode_iff]
        exact h
      rw [if_pos hv]
      exact ⟨by show ("物料编码格式不正确，应为 x.xx.x.xx.xx.xxx 格式" : String) ≠ ""; decide, rfl⟩
  · intro h1 h2
    have hv1 := (validateMaterialCode_iff old).mpr h1
    have hv2 := (validateMaterialCode_iff new).mpr h2
    have he : ¬ (old = "" ∨ new = "") := by
      rintro (rfl | rfl)
      · exact absurd h1 (by decide)
      · exact absurd h2 (by decide)
    unfold setMaterialMapping
    rw [if_neg he, if_neg (by exact fun hc => hc ⟨hv1, hv2⟩)]
    exact ⟨rfl, lookupMapping_insertMapping tbl old new⟩

/-- C7 witness: the theorem applied to a valid ASCII pair (insert
succeeds and the old code retrieves the new one), to a valid pair whose
old code carries an Arabic-Indic digit U+0663 — a digit for Python
`str.isdigit()`, so the program accepts it — and to an ill-formed old
code (error message, table untouched). -/
theorem spec_c7_witness :
    ((setMaterialMapping [] "8.01.1.01.01.206" "8.01.1.01.01.233").1 = "" ∧
        lookupMapping (setMaterialMapping [] "8.01.1.01.01.206" "8.01.1.01.01.233").2
          "8.01.1.01.01.206" = some "8.01.1.01.01.233") ∧
      ((setMaterialMapping [] "٣.1.1.1.1.1" "8.01.1.01.01.233").1 = "" ∧
        lookupMapping (setMaterialMapping [] "٣.1.1.1.1.1" "8.01.1.01.01.233").2
          "٣.1.1.1.1.1" = some "8.01.1.01.01.233") ∧
      ((setMaterialMapping [] "1.2.3" "8.01.1.01.01.233").1 ≠ "" ∧
        (setMaterialMapping [] "1.2.3" "8.01.1.01.01.233").2 = []) :=
  ⟨(spec_c7_set_mapping [] "8.01.1.01.01.206" "8.01.1.01.01.233").2 (by decide) (by decide),
    (spec_c7_set_mapping [] "٣.1.1.1.1.1" "8.01.1.01.01.233").2 (by decide) (by decide),
    (spec_c7_set_mapping [] "1.2.3" "8.01.1.01.01.233").1 (by decide)⟩

theorem countsAux_zero (qs : List ℤ) : countsAux 0 qs = qs.map (fun _ => 0) := by
  induction qs with
  | nil => rfl
  | cons q qs ih =>
    show (min q ((0:ℕ) : ℤ)).toNat :: countsAux (0 - (min q ((0:ℕ) : ℤ)).toNat) qs = _
    have h0 : (min q ((0:ℕ) : ℤ)).toNat = 0 := by omega
    rw [h0]
    simpa using ih

theorem allocGo_counts (bs : List (String × ℤ)) :
    ∀ (s : ProcState) (pending : List ℕ),
      (allocGo s pending bs).2.2 = countsAux pending.length (bs.map Prod.snd) := by
  induction bs with
  | nil => intro s pending; rfl
  | cons bq rest ih =>
    intro s pending
    obtain ⟨b, q⟩ := bq
    by_cases hp : pending.isEmpty
    · have hpe : pending = [] := by simpa [List.isEmpty_iff] using hp
      subst hpe
      show ((b, q) :: rest).map (fun _ => 0) = countsAux 0 ((q :: rest.map Prod.snd))
      rw [countsAux_zero]
      simp [Function.comp_def]
    · have hne : pending.isEmpty = false := by simpa using hp
      show (allocGo s pending ((b, q) :: rest)).2.2 = _
      unfold allocGo
      rw [hne]
      simp only [Bool.false_eq_true, if_false]
      rw [ih]
      show _ :: countsAux (pending.drop (min q (pending.length : ℤ)).toNat).length _ = _
      rw [List.length_drop]
      rfl

theorem countsAux_nonpos (qs : List ℤ) :
    ∀ (d i : ℕ), i < qs.length → qs.getD i 0 ≤ 0 → (countsAux d qs).getD i 0 = 0 := by
  induction qs with
  | nil => intro d i hi; cases hi
  | cons q qs ih =>
    intro d i hi hq
    cases i with
    | zero =>
      show (min q (d:ℤ)).toNat = 0
      have : (q :: qs).getD 0 0 = q := rfl
      rw [this] at hq
      omega
    | succ i' =>
      have hi' : i' < qs.length := by simpa using hi
      exact ih (d - (min q (d:ℤ)).toNat) i' hi' hq

theorem modifyRow_length :
    ∀ (l : List SalesRow) (i : ℕ) (f : SalesRow → SalesRow),
      (modifyRow l i f).length = l.length := by
  intro l
  induction l with
  | nil => intro i f; rfl
  | cons r rs ih =>
    intro i f
    cases i with
    | zero => rfl
    | succ i' => show (modifyRow rs i' f).length + 1 = rs.length + 1; rw [ih]

theorem wAll_length (b : String) :
    ∀ (L : List ℕ) (s : ProcState),
      (L.foldl (fun acc i => writeBatchRow acc b i) s).sales.length = s.sales.length := by
  intro L
  induction L with
  | nil => intro s; rfl
  | cons x xs ih =>
    intro s
    rw [List.foldl_cons, ih]
    exact modifyRow_length _ _ _

theorem allocGo_length (bs : List (String × ℤ)) :
    ∀ (s : ProcState) (pending : List ℕ),
      (allocGo s pending bs).1.sales.length = s.sales.length := by
  induction bs with
  | nil => intro s pending; rfl
  | cons bq rest ih =>
    intro s pending
    obtain ⟨b, q⟩ := bq
    by_cases hp : pending.isEmpty
    · unfold allocGo; rw [hp]; simp
    · have hne : pending.isEmpty = false := by simpa using hp
      unfold allocGo
      rw [hne]
      simp only [Bool.false_eq_true, if_false]
      rw [ih, wAll_length]

/-- C10. A stock row whose quantity cell is absent or unparseable enters
phase 3 with quantity `0 = truncQ ((none).getD 0)` and a batch with
nonpositive quantity is assigned zero ledger rows; a fractional quantity
is truncated toward zero (so 3.9 covers exactly 3 rows of demand, and
-3.9 truncates to -3, not the floor -4): on five pending rows a single
batch of quantity `truncQ 3.9` is assigned exactly 3 rows with 2 left
over. -/
theorem spec_c10_quantity_parsing :
    (∀ r : StockRow, r.k = none → truncQ (knumQ r) = 0) ∧
      (∀ (s : ProcState) (pending : List ℕ) (bs : List (String × ℤ)) (i : ℕ),
        i < bs.length → (bs.getD i ("", 0)).2 ≤ 0 →
        ((allocGo s pending bs).2.2).getD i 0 = 0) ∧
      truncQ (mkRat 39 10) = 3 ∧ truncQ (mkRat (-39) 10) = -3 ∧
      (allocGo ⟨[], [], []⟩ [1, 2, 3, 4, 5] [("B", truncQ (mkRat 39 10))]).2.2 = [3] ∧
      ((allocGo ⟨[], [], []⟩ [1, 2, 3, 4, 5] [("B", truncQ (mkRat 39 10))]).2.1).length = 2 := by
  refine ⟨?_, ?_, by decide, by decide, by decide, by decide⟩
  · intro r h
    simp only [knumQ, h, Option.getD_none]
    decide
  · intro s pending bs i hi hle
    rw [allocGo_counts]
    have hbridge : (bs.map Prod.snd).getD i 0 = (bs.getD i ("", 0)).2 := by
      rw [List.getD_eq_getElem?_getD, List.getD_eq_getElem?_getD, List.getElem?_map,
        List.getElem?_eq_getElem hi]
      rfl
    exact countsAux_nonpos (bs.map Prod.snd) pending.length i (by simpa using hi)
      (by rw [hbridge]; exact hle)

/-- C10 witness: the theorem applied to a stock row with an absent
quantity cell and to a batch list whose first batch has quantity zero. -/
theorem spec_c10_witness :
    truncQ (knumQ ⟨none, none, none, none, none, none⟩) = 0 ∧
      ((allocGo ⟨[], [], []⟩ [1, 2] [("B0", 0), ("B1", 2)]).2.2).getD 0 0 = 0 :=
  ⟨spec_c10_quantity_parsing.1 ⟨none, none, none, none, none, none⟩ rfl,
    spec_c10_quantity_parsing.2.1 ⟨[], [], []⟩ [1, 2] [("B0", 0), ("B1", 2)] 0
      (by decide) (by decide)⟩

theorem foldl_auxStep_eq_scan (rows : List StockRow) :
    ∀ (m : String × String → Option Aux) (c w : String),
      (rows.foldl auxStep m) (c, w)
        = (rows.filter (rowMatches c w)).foldl pickAux (m (c, w)) := by
  induction rows with
  | nil => intro m c w; rfl
  | cons r rest ih =>
    intro m c w
    rw [List.foldl_cons, ih]
    by_cases hskip : normalizeMaterialCode r.a = "" ∨ pyStrip (strOrNan r.g) = ""
    · have hstep : auxStep m r = m := by
        unfold auxStep
        rw [if_pos hskip]
      have hmatch : rowMatches c w r = false := by
        unfold rowMatches
        simp only [decide_eq_false_iff_not]
        rintro ⟨h1, h2, h3, h4⟩
        rcases hskip with h | h
        · exact h3 (h1 ▸ h)
        · exact h4 (h2 ▸ h)
      rw [hstep, List.filter_cons, hmatch]
      simp
    · have hstep : auxStep m r = fun key =>
          if key = (normalizeMaterialCode r.a, pyStrip (strOrNan r.g)) then
            match m key with
            | none => some (auxOf r)
            | some v => if v.k < knumQ r then some (auxOf r) else some v
          else m key := by
        unfold auxStep
        rw [if_neg hskip]
      by_cases hkey : (c, w) = (normalizeMaterialCode r.a, pyStrip (strOrNan r.g))
      · have hmatch : rowMatches c w r = true := by
          unfold rowMatches
          have hc : normalizeMaterialCode r.a = c := (congrArg Prod.fst hkey).symm
          have hw : pyStrip (strOrNan r.g) = w := (congrArg Prod.snd hkey).symm
          simp only [decide_eq_true_eq]
          refine ⟨hc, hw, ?_, ?_⟩
          · rw [← hc]; intro hcon; exact hskip (Or.inl hcon)
          · rw [← hw]; intro hcon; exact hskip (Or.inr hcon)
        rw [List.filter_cons, hmatch]
        simp only [if_true]
        rw [List.foldl_cons]
        have hval : (auxStep m r) (c, w) = pickAux (m (c, w)) r := by
          rw [hstep]
          simp only [hkey, if_true]
          cases m (c, w) <;> rfl
        rw [hval]
      · have hmatch : rowMatches c w r = false := by
          unfold rowMatches
          simp only [decide_eq_false_iff_not]
          rintro ⟨h1, h2, _, _⟩
          exact hkey (by rw [← h1, ← h2])
        rw [List.filter_cons, hmatch]
        simp only [Bool.false_eq_true, if_false]
        have hval : (auxStep m r) (c, w) = m (c, w) := by
          rw [hstep]
          simp only [hkey, if_false]
        rw [hval]

theorem pickAux_scan_some (l : List StockRow) :
    ∀ (v0 v : Aux), l.foldl pickAux (some v0) = some v →
      (v = v0 ∧ ∀ x ∈ l, knumQ x ≤ v0.k)
        ∨ ∃ l1 r l2, l = l1 ++ r :: l2 ∧ v = auxOf r ∧ v0.k < knumQ r
            ∧ (∀ x ∈ l1, knumQ x < knumQ r) ∧ (∀ x ∈ l2, knumQ x ≤ knumQ r) := by
  induction l with
  | nil =>
    intro v0 v h
    left
    exact ⟨(Option.some_inj.mp h).symm, by simp⟩
  | cons x rest ih =>
    intro v0 v h
    rw [List.foldl_cons] at h
    by_cases hrep : v0.k < knumQ x
    · have hpick : pickAux (some v0) x = some (auxOf x) := by
        have hdef : pickAux (some v0) x
            = if v0.k < knumQ x then some (auxOf x) else some v0 := rfl
        rw [hdef, if_pos hrep]
      rw [hpick] at h
      rcases ih (auxOf x) v h with ⟨hv, hall⟩ | ⟨l1, r, l2, hsplit, hv, hlt, hl1, hl2⟩
      · right
        refine ⟨[], x, rest, rfl, hv, hrep, by simp, ?_⟩
        intro y hy
        exact hall y hy
      · right
        refine ⟨x :: l1, r, l2, by rw [hsplit, List.cons_append], hv, ?_, ?_, hl2⟩
        · exact lt_trans hrep hlt
        · intro y hy
          rcases List.mem_cons.mp hy with hx | hx
          · subst hx; exact hlt
          · exact hl1 y hx
    · have hpick : pickAux (some v0) x = some v0 := by
        have hdef : pickAux (some v0) x
            = if v0.k < knumQ x then some (auxOf x) else some v0 := rfl
        rw [hdef, if_neg hrep]
      rw [hpick] at h
      rcases ih v0 v h with ⟨hv, hall⟩ | ⟨l1, r, l2, hsplit, hv, hlt, hl1, hl2⟩
      · left
        refine ⟨hv, ?_⟩
        intro y hy
        rcases List.mem_cons.mp hy with hx | hx
        · subst hx; exact le_of_not_lt hrep
        · exact hall y hx
      · right
        refine ⟨x :: l1, r, l2, by rw [hsplit, List.cons_append], hv, hlt, ?_, hl2⟩
        intro y hy
        rcases List.mem_cons.mp hy with hx | hx
        · subst hx; exact lt_of_le_of_lt (le_of_not_lt hrep) hlt
        · exact hl1 y hx

theorem pickAux_scan_none (l : List StockRow) (v : Aux)
    (h : l.foldl pickAux none = some v) :
    ∃ l1 r l2, l = l1 ++ r :: l2 ∧ v = auxOf r
      ∧ (∀ x ∈ l1, knumQ x < knumQ r) ∧ (∀ x ∈ l2, knumQ x ≤ knumQ r) := by
  cases l with
  | nil => cases h
  | cons r0 rest =>
    rw [List.foldl_cons] at h
    have hpick : pickAux none r0 = some (auxOf r0) := rfl
    rw [hpick] at h
    rcases pickAux_scan_some rest (auxOf r0) v h with ⟨hv, hall⟩
        | ⟨l1, r, l2, hsplit, hv, hlt, hl1, hl2⟩
    · exact ⟨[], r0, rest, rfl, hv, by simp, fun x hx => hall x hx⟩
    · refine ⟨r0 :: l1, r, l2, by rw [hsplit, List.cons_append], hv, ?_, hl2⟩
      intro y hy
      rcases List.mem_cons.mp hy with hx | hx
      · subst hx; exact hlt
      · exact hl1 y hx

/-- C6. Attribute-sync selection rule: whenever the aux map built by
phase 2 holds a value for a (code, warehouse) key, that value is the
attribute record of a matching snapshot row that splits the group's
matching rows into strictly-smaller earlier rows and
smaller-or-equal later rows — that is, the row with the numerically
largest available quantity, the first one in snapshot order when
several rows tie for the maximum. -/
theorem spec_c6_attribute_selection (stock : List StockRow) (c w : String) (v : Aux)
    (h : buildAuxMap stock (c, w) = some v) :
    ∃ l1 r l2, matchingStockRows stock c w = l1 ++ r :: l2 ∧ v = auxOf r
      ∧ (∀ x ∈ l1, knumQ x < knumQ r) ∧ (∀ x ∈ l2, knumQ x ≤ knumQ r) := by
  unfold buildAuxMap at h
  rw [foldl_auxStep_eq_scan] at h
  exact pickAux_scan_none _ v h

/-- C6 witness: on the tied snapshot the aux map holds the first of the
two maximal rows, and the theorem applies to it. -/
theorem spec_c6_witness :
    buildAuxMap tieStock ("1.1.1.1.1.1", "W") = some ⟨"ea", "fa", 5⟩ ∧
      ∃ l1 r l2, matchingStockRows tieStock "1.1.1.1.1.1" "W" = l1 ++ r :: l2
        ∧ (⟨"ea", "fa", 5⟩ : Aux) = auxOf r
        ∧ (∀ x ∈ l1, knumQ x < knumQ r) ∧ (∀ x ∈ l2, knumQ x ≤ knumQ r) :=
  ⟨by decide, spec_c6_attribute_selection tieStock "1.1.1.1.1.1" "W" ⟨"ea", "fa", 5⟩ (by decide)⟩

theorem replacePass_eq (s : ProcState) (o n : String) :
    replacePass s o n = s
      ∨ (normStr o ≠ "" ∧ normStr o ≠ normStr n
          ∧ matchedIdxs (normStr o) 0 s.sales ≠ []
          ∧ replacePass s o n
              = { s with sales := rewriteDZ (normStr o) n 0 s.sales,
                         modified := s.modified
                           ++ (matchedIdxs (normStr o) 0 s.sales).map (fun i => (i, 129)) }) := by
  by_cases hskip : normStr o = "" ∨ normStr o = normStr n
  · left
    unfold replacePass
    rw [if_pos hskip]
  · cases hm : (matchedIdxs (normStr o) 0 s.sales).isEmpty with
    | true =>
      left
      unfold replacePass
      rw [if_neg hskip]
      simp only [hm, if_true]
    | false =>
      right
      push_neg at hskip
      refine ⟨hskip.1, hskip.2, by simpa [List.isEmpty_iff] using hm, ?_⟩
      unfold replacePass
      rw [if_neg (by push_neg; exact hskip)]
      simp only [hm, Bool.false_eq_true, if_false]

theorem matchedIdxs_intro (oldN : String) :
    ∀ (l : List SalesRow) (start j : ℕ) (r : SalesRow),
      l.get? j = some r → 1 ≤ start + j → normalizeMaterialCode r.dz = oldN →
      (start + j) ∈ matchedIdxs oldN start l := by
  intro l
  induction l with
  | nil => intro start j r hr; cases j <;> cases hr
  | cons x rest ih =>
    intro start j r hr hge hnorm
    cases j with
    | zero =>
      have hx : x = r := by simpa using hr
      subst hx
      unfold matchedIdxs
      rw [if_pos ⟨by omega, hnorm⟩]
      simp
    | succ j' =>
      have hr' : rest.get? j' = some r := by simpa using hr
      have hmem := ih (start + 1) j' r hr' (by omega) hnorm
      have harith : start + 1 + j' = start + (j' + 1) := by omega
      rw [harith] at hmem
      unfold matchedIdxs
      by_cases hc : 1 ≤ start ∧ normalizeMaterialCode x.dz = oldN
      · rw [if_pos hc]
        exact List.mem_cons_of_mem _ hmem
      · rw [if_neg hc]
        exact hmem

theorem matchedIdxs_empty_of (sales : List SalesRow) (oldN : String)
    (h : ∀ j, 1 ≤ j → dzNormAt sales j ≠ oldN) :
    matchedIdxs oldN 0 sales = [] := by
  cases hm : matchedIdxs oldN 0 sales with
  | nil => rfl
  | cons j js =>
    exfalso
    have hj : j ∈ matchedIdxs oldN 0 sales := by rw [hm]; exact List.mem_cons_self j js
    obtain ⟨r, hr, h1, h2⟩ := matchedIdxs_mem oldN sales 0 j hj
    rw [Nat.sub_zero] at hr
    apply h j h1
    unfold dzNormAt
    rw [hr]
    exact h2

theorem matchedIdxs_pairwise (oldN : String) :
    ∀ (l : List SalesRow) (start : ℕ), (matchedIdxs oldN start l).Pairwise (· < ·) := by
  intro l
  induction l with
  | nil => intro start; exact List.Pairwise.nil
  | cons x rest ih =>
    intro start
    unfold matchedIdxs
    by_cases hc : 1 ≤ start ∧ normalizeMaterialCode x.dz = oldN
    · rw [if_pos hc]
      refine List.Pairwise.cons ?_ (ih (start + 1))
      intro j hj
      have := matchedIdxs_ge oldN rest (start + 1) j hj
      omega
    · rw [if_neg hc]
      exact ih (start + 1)

theorem replacePass_sales (s : ProcState) (o n : String)
    (h1 : normStr o ≠ "") (h2 : normStr o ≠ normStr n) :
    (replacePass s o n).sales = rewriteDZ (normStr o) n 0 s.sales
      ∨ (replacePass s o n = s ∧ matchedIdxs (normStr o) 0 s.sales = []) := by
  unfold replacePass
  rw [if_neg (by push_neg; exact ⟨h1, h2⟩)]
  cases hm : (matchedIdxs (normStr o) 0 s.sales).isEmpty with
  | true =>
    right
    constructor
    · simp only [hm, if_true]
    · simpa [List.isEmpty_iff] using hm
  | false =>
    left
    simp only [hm, Bool.false_eq_true, if_false]

theorem dzNormAt_rewriteDZ (sales : List SalesRow) (o n : String) (i : ℕ) :
    dzNormAt (rewriteDZ (normStr o) n 0 sales) i = dzNormAt sales i
      ∨ (dzNormAt (rewriteDZ (normStr o) n 0 sales) i = normStr n
          ∧ dzNormAt sales i = normStr o ∧ 1 ≤ i) := by
  unfold dzNormAt
  rw [rewriteDZ_get? (normStr o) n sales 0 i]
  cases hr : sales.get? i with
  | none => left; rfl
  | some r =>
    by_cases hcond : 1 ≤ 0 + i ∧ normalizeMaterialCode r.dz = normStr o
    · right
      refine ⟨?_, hcond.2, by omega⟩
      simp only [Option.map_some', if_pos hcond, Option.some_bind]
      rfl
    · left
      simp only [Option.map_some', if_neg hcond, Option.some_bind]

theorem replacePass_no_old (s : ProcState) (o n : String)
    (h1 : normStr o ≠ "") (h2 : normStr o ≠ normStr n) :
    ∀ i, 1 ≤ i → dzNormAt (replacePass s o n).sales i ≠ normStr o := by
  intro i hi hcon
  rcases replacePass_sales s o n h1 h2 with hs | ⟨hs, hempty⟩
  · rw [hs] at hcon
    rcases dzNormAt_rewriteDZ s.sales o n i with heq | ⟨heq, -, -⟩
    · -- the cell was left alone, so it did not match the old code,
      -- yet its normalization equals the old code: contradiction
      rw [heq] at hcon
      unfold dzNormAt at hcon
      cases hr : s.sales.get? i with
      | none =>
        rw [hr] at hcon
        exact h1 hcon.symm
      | some r =>
        rw [hr] at hcon
        -- row i matches, so the rewrite must have fired; recheck via
        -- rewriteDZ_get? to extract the contradiction
        have hget := rewriteDZ_get? (normStr o) n s.sales 0 i
        rw [hr] at hget
        simp only [Option.map_some', if_pos (⟨by omega, hcon⟩ :
          1 ≤ 0 + i ∧ normalizeMaterialCode r.dz = normStr o)] at hget
        have hx : dzNormAt (rewriteDZ (normStr o) n 0 s.sales) i = normStr n := by
          unfold dzNormAt
          rw [hget, Option.some_bind]
          rfl
        have hy : dzNormAt s.sales i = normStr o := by
          unfold dzNormAt
          rw [hr]
          exact hcon
        exact h2 (((hx.symm.trans heq).trans hy).symm)
    · rw [heq] at hcon
      exact h2 hcon.symm
  · rw [hs] at hcon
    unfold dzNormAt at hcon
    cases hr : s.sales.get? i with
    | none =>
      rw [hr] at hcon
      exact h1 hcon.symm
    | some r =>
      rw [hr] at hcon
      have hmem := matchedIdxs_intro (normStr o) s.sales 0 i r hr (by omega) hcon
      rw [Nat.zero_add] at hmem
      rw [hempty] at hmem
      cases hmem

theorem replacePass_dzNormAt_cases (s : ProcState) (o n : String) (i : ℕ) :
    dzNormAt (replacePass s o n).sales i = dzNormAt s.sales i
      ∨ dzNormAt (replacePass s o n).sales i = normStr n := by
  rcases replacePass_eq s o n with hid | ⟨-, -, -, heq⟩
  · left
    rw [hid]
  · have hsal : (replacePass s o n).sales = rewriteDZ (normStr o) n 0 s.sales := by
      rw [heq]
    rw [hsal]
    rcases dzNormAt_rewriteDZ s.sales o n i with h | ⟨h, -, -⟩
    · left; exact h
    · right; exact h

theorem foldPasses_dzNormAt (todo : List (String × String)) :
    ∀ (s : ProcState) (i : ℕ),
      dzNormAt ((todo.foldl (fun s q => replacePass s q.1 q.2) s).sales) i
          = dzNormAt s.sales i
        ∨ ∃ p ∈ todo,
            dzNormAt ((todo.foldl (fun s q => replacePass s q.1 q.2) s).sales) i
              = normStr p.2 := by
  induction todo with
  | nil => intro s i; left; rfl
  | cons q rest ih =>
    intro s i
    rw [List.foldl_cons]
    rcases ih (replacePass s q.1 q.2) i with h | ⟨p, hp, h⟩
    · rcases replacePass_dzNormAt_cases s q.1 q.2 i with h2 | h2
      · left; rw [h, h2]
      · right; exact ⟨q, List.mem_cons_self q rest, h.trans h2⟩
    · right; exact ⟨p, List.mem_cons_of_mem q hp, h⟩

theorem foldPasses_no_old (O : List String) (todo : List (String × String))
    (hold : ∀ p ∈ todo, normStr p.1 ∈ O) (hnew : ∀ p ∈ todo, normStr p.2 ∉ O) :
    ∀ (s : ProcState) (i : ℕ), 1 ≤ i → ∀ p ∈ todo, normStr p.1 ≠ "" →
      dzNormAt ((todo.foldl (fun s q => replacePass s q.1 q.2) s).sales) i
        ≠ normStr p.1 := by
  induction todo with
  | nil => intro s i _ p hp; cases hp
  | cons q rest ih =>
    intro s i hi p hp hne
    rw [List.foldl_cons]
    rcases List.mem_cons.mp hp with hq | hrest
    · subst hq
      have hql : normStr p.1 ≠ normStr p.2 := by
        intro hcon
        exact hnew p (List.mem_cons_self p rest)
          (hcon ▸ hold p (List.mem_cons_self p rest))
      have hafter := replacePass_no_old s p.1 p.2 hne hql i hi
      rcases foldPasses_dzNormAt rest (replacePass s p.1 p.2) i with h | ⟨p', hp', h⟩
      · rw [h]; exact hafter
      · rw [h]
        intro hcon
        exact hnew p' (List.mem_cons_of_mem p hp') (hcon ▸ hold p (List.mem_cons_self p rest))
    · exact ih (fun x hx => hold x (List.mem_cons_of_mem q hx))
        (fun x hx => hnew x (List.mem_cons_of_mem q hx))
        (replacePass s q.1 q.2) i hi p hrest hne

theorem replacePass_id (s : ProcState) (o n : String)
    (h : ∀ i, 1 ≤ i → dzNormAt s.sales i ≠ normStr o) :
    replacePass s o n = s := by
  by_cases hskip : normStr o = "" ∨ normStr o = normStr n
  · unfold replacePass
    rw [if_pos hskip]
  · have hempty := matchedIdxs_empty_of s.sales (normStr o) h
    unfold replacePass
    rw [if_neg hskip]
    simp only [hempty, List.isEmpty_nil, if_true]

theorem foldPasses_id (todo : List (String × String)) :
    ∀ (s : ProcState),
      (∀ p ∈ todo, normStr p.1 ≠ "" → ∀ i, 1 ≤ i → dzNormAt s.sales i ≠ normStr p.1) →
      todo.foldl (fun s q => replacePass s q.1 q.2) s = s := by
  induction todo with
  | nil => intro s _; rfl
  | cons q rest ih =>
    intro s h
    have hq : replacePass s q.1 q.2 = s := by
      by_cases hne : normStr q.1 = ""
      · unfold replacePass
        rw [if_pos (Or.inl hne)]
      · exact replacePass_id s q.1 q.2 (h q (List.mem_cons_self q rest) hne)
    rw [List.foldl_cons, hq]
    exact ih s (fun p hp => h p (List.mem_cons_of_mem q hp))

theorem foldl_preserve {α : Type} (P : ProcState → Prop)
    (f : ProcState → α → ProcState) (hf : ∀ s a, P s → P (f s a)) :
    ∀ (l : List α) (s : ProcState), P s → P (l.foldl f s) := by
  intro l
  induction l with
  | nil => intro s hs; exact hs
  | cons a rest ih =>
    intro s hs
    rw [List.foldl_cons]
    exact ih (f s a) (hf s a hs)

theorem astype_allsome (st : ProcState) : AllDZSome (astypeStrDZ st).sales := by
  intro r hr
  unfold astypeStrDZ at hr
  simp only at hr
  obtain ⟨r0, -, hval⟩ := List.mem_map.mp hr
  rw [← hval]
  rfl

theorem rewriteDZ_allsome (oN nv : String) :
    ∀ (l : List SalesRow) (i : ℕ), AllDZSome l → AllDZSome (rewriteDZ oN nv i l) := by
  intro l
  induction l with
  | nil => intro i _; intro r hr; cases hr
  | cons x rest ih =>
    intro i h r hr
    unfold rewriteDZ at hr
    rcases List.mem_cons.mp hr with hhead | htail
    · by_cases hc : 1 ≤ i ∧ normalizeMaterialCode x.dz = oN
      · rw [if_pos hc] at hhead
        rw [hhead]
        rfl
      · rw [if_neg hc] at hhead
        rw [hhead]
        exact h x (List.mem_cons_self x rest)
    · exact ih (i + 1) (fun y hy => h y (List.mem_cons_of_mem x hy)) r htail

theorem replacePass_allsome (s : ProcState) (o n : String)
    (h : AllDZSome s.sales) : AllDZSome (replacePass s o n).sales := by
  rcases replacePass_eq s o n with hid | ⟨-, -, -, heq⟩
  · rw [hid]; exact h
  · have hsal : (replacePass s o n).sales = rewriteDZ (normStr o) n 0 s.sales := by
      rw [heq]
    rw [hsal]
    exact rewriteDZ_allsome (normStr o) n s.sales 0 h

theorem replaceMaterialCodes_allsome (m : List (String × String)) (st : ProcState) :
    AllDZSome (replaceMaterialCodes m st).sales := by
  unfold replaceMaterialCodes
  exact foldl_preserve (fun s => AllDZSome s.sales) _
    (fun s p hp => replacePass_allsome s p.1 p.2 hp) m (astypeStrDZ st) (astype_allsome st)

theorem astype_id (st : ProcState) (h : AllDZSome st.sales) : astypeStrDZ st = st := by
  have hmap : st.sales.map (fun r => { r with dz := some (strOrNan r.dz) }) = st.sales := by
    have : ∀ l : List SalesRow, AllDZSome l →
        l.map (fun r => { r with dz := some (strOrNan r.dz) }) = l := by
      intro l
      induction l with
      | nil => intro _; rfl
      | cons x rest ih =>
        intro hl
        rw [List.map_cons, ih (fun y hy => hl y (List.mem_cons_of_mem x hy))]
        have hx := hl x (List.mem_cons_self x rest)
        obtain ⟨v, hv⟩ := Option.isSome_iff_exists.mp hx
        cases x with
        | mk dz ec ed ff fg gj =>
          simp only at hv
          rw [hv]
          rfl
    exact this st.sales h
  unfold astypeStrDZ
  rw [hmap]

/-- C9 (amended). Phase 1 is idempotent provided no mapping pair's new
code coincides, after normalization, with any pair's old code (without
that separation a pair whose new code is another pair's old code makes a
second run rewrite again — see the counterexample): re-running
`_replace_material_codes` on its own output returns the state unchanged.
A pair whose old and new codes agree after normalization is always
skipped as a no-op. -/
theorem spec_c9_amended (m : List (String × String))
    (hsep : ∀ p ∈ m, normStr p.2 ∉ m.map (fun q => normStr q.1)) :
    (∀ st : ProcState,
        replaceMaterialCodes m (replaceMaterialCodes m st) = replaceMaterialCodes m st) ∧
      ∀ (s : ProcState) (o n : String), normStr o = normStr n → replacePass s o n = s := by
  constructor
  · intro st
    have hall := replaceMaterialCodes_allsome m st
    have hnomatch := foldPasses_no_old (m.map (fun q => normStr q.1)) m
      (fun p hp => List.mem_map.mpr ⟨p, hp, rfl⟩) hsep (astypeStrDZ st)
    have hfold : replaceMaterialCodes m (replaceMaterialCodes m st)
        = m.foldl (fun s p => replacePass s p.1 p.2)
            (astypeStrDZ (replaceMaterialCodes m st)) := rfl
    rw [hfold, astype_id _ hall]
    exact foldPasses_id m (replaceMaterialCodes m st)
      (fun p hp hne i hi => hnomatch i hi p hp hne)
  · intro s o n h
    unfold replacePass
    rw [if_pos (Or.inr h)]

/-- C9 witness: the amended theorem applied to a concrete separated
mapping and ledger, plus the self-map no-op clause at a concrete pair. -/
theorem spec_c9_witness :
    replaceMaterialCodes w9Mapping (replaceMaterialCodes w9Mapping swapState)
        = replaceMaterialCodes w9Mapping swapState ∧
      replacePass swapState "3.3.3.3.3.3" "3.3.3.3.3.3" = swapState := by
  have h := spec_c9_amended w9Mapping (by decide)
  exact ⟨h.1 swapState, h.2 swapState "3.3.3.3.3.3" "3.3.3.3.3.3" rfl⟩

theorem track_nodup (ms : List (ℕ × ℕ)) (p : ℕ × ℕ) (h : ms.Nodup) :
    (track ms p).Nodup := by
  unfold track
  by_cases hmem : p ∈ ms
  · rw [if_pos hmem]; exact h
  · rw [if_neg hmem]
    refine List.Nodup.append h (List.nodup_singleton p) ?_
    intro a ha hb
    rw [List.mem_singleton] at hb
    subst hb
    exact hmem ha

theorem setEC_nodup (s : ProcState) (i : ℕ) (v : String) (h : s.modified.Nodup) :
    (setEC s i v).modified.Nodup := track_nodup _ _ h

theorem setED_nodup (s : ProcState) (i : ℕ) (v : String) (h : s.modified.Nodup) :
    (setED s i v).modified.Nodup := track_nodup _ _ h

theorem writeBatchRow_nodup (s : ProcState) (b : String) (i : ℕ) (h : s.modified.Nodup) :
    (writeBatchRow s b i).modified.Nodup := track_nodup _ _ (track_nodup _ _ h)

theorem allocGo_nodup (bs : List (String × ℤ)) :
    ∀ (s : ProcState) (pending : List ℕ), s.modified.Nodup →
      (allocGo s pending bs).1.modified.Nodup := by
  induction bs with
  | nil => intro s pending h; exact h
  | cons bq rest ih =>
    intro s pending h
    obtain ⟨b, q⟩ := bq
    by_cases hp : pending.isEmpty
    · unfold allocGo; rw [hp]; simpa using h
    · have hne : pending.isEmpty = false := by simpa using hp
      unfold allocGo
      rw [hne]
      simp only [Bool.false_eq_true, if_false]
      exact ih _ _ (foldl_preserve (fun s => s.modified.Nodup) _
        (fun s a hs => writeBatchRow_nodup s b a hs) _ s h)

theorem allocateBatches_nodup (s : ProcState) (idxs : List ℕ) (bs : List (String × ℤ))
    (h : s.modified.Nodup) : (allocateBatches s idxs bs).modified.Nodup := by
  unfold allocateBatches
  by_cases he : (allocGo s idxs bs).2.1.isEmpty = true
  · simp only [he, if_true]
    exact allocGo_nodup bs s idxs h
  · have hne : (allocGo s idxs bs).2.1.isEmpty = false := by simpa using he
    simp only [hne, Bool.false_eq_true, if_false]
    exact allocGo_nodup bs s idxs h

theorem syncAuxGroup_nodup (am : String × String → Option Aux) (nN w : String)
    (s : ProcState) (h : s.modified.Nodup) : (syncAuxGroup am nN w s).modified.Nodup := by
  unfold syncAuxGroup
  by_cases hidx : (groupIdxs s.sales nN w).isEmpty = true
  · simp only [hidx, if_true]; exact h
  · have hne : (groupIdxs s.sales nN w).isEmpty = false := by simpa using hidx
    simp only [hne, Bool.false_eq_true, if_false]
    cases ham : am (nN, w) with
    | none => exact h
    | some v =>
      exact foldl_preserve (fun s => s.modified.Nodup) _
        (fun s a hs => setED_nodup s a v.f hs) _ _
        (foldl_preserve (fun s => s.modified.Nodup) _
          (fun s a hs => setEC_nodup s a v.e hs) _ s h)

theorem syncAuxCode_nodup (am : String × String → Option Aux) (s : ProcState) (nc : String)
    (h : s.modified.Nodup) : (syncAuxCode am s nc).modified.Nodup := by
  unfold syncAuxCode
  exact foldl_preserve (fun s => s.modified.Nodup) _
    (fun s a hs => syncAuxGroup_nodup am _ a s hs) _ s h

theorem syncAux_nodup (m : List (String × String)) (stock : List StockRow) (s : ProcState)
    (h : s.modified.Nodup) : (syncAuxiliaryAttributes m stock s).modified.Nodup := by
  unfold syncAuxiliaryAttributes
  exact foldl_preserve (fun s => s.modified.Nodup) _
    (fun s a hs => syncAuxCode_nodup _ s a hs) _ s h

theorem syncBatchGroup_nodup (stock : List StockRow) (nN w : String) (s : ProcState)
    (h : s.modified.Nodup) : (syncBatchGroup stock nN w s).modified.Nodup := by
  unfold syncBatchGroup
  by_cases hidx : (groupIdxs s.sales nN w).isEmpty = true
  · simp only [hidx, if_true]; exact h
  · have hne : (groupIdxs s.sales nN w).isEmpty = false := by simpa using hidx
    simp only [hne, Bool.false_eq_true, if_false]
    by_cases hrows : (stockGroupRows stock nN w).isEmpty = true
    · simp only [hrows, if_true]; exact h
    · have hrne : (stockGroupRows stock nN w).isEmpty = false := by simpa using hrows
      simp only [hrne, Bool.false_eq_true, if_false]
      exact allocateBatches_nodup s _ _ h

theorem syncBatchCode_nodup (stock : List StockRow) (s : ProcState) (nc : String)
    (h : s.modified.Nodup) : (syncBatchCode stock s nc).modified.Nodup := by
  unfold syncBatchCode
  exact foldl_preserve (fun s => s.modified.Nodup) _
    (fun s a hs => syncBatchGroup_nodup stock _ a s hs) _ s h

theorem syncBatch_nodup (m : List (String × String)) (stock : List StockRow) (s : ProcState)
    (h : s.modified.Nodup) : (syncBatchNumbers m stock s).modified.Nodup := by
  unfold syncBatchNumbers
  exact foldl_preserve (fun s => s.modified.Nodup) _
    (fun s a hs => syncBatchCode_nodup stock s a hs) _ s h

theorem replacePass_trackInv (O : List String) (s : ProcState) (o n : String)
    (hold : normStr o ∈ O) (hnew : normStr n ∉ O) (h : TrackInv O s) :
    TrackInv O (replacePass s o n) := by
  rcases replacePass_eq s o n with hid | ⟨h1, h2, hne, heq⟩
  · rw [hid]; exact h
  · rw [heq]
    constructor
    · show (s.modified ++ (matchedIdxs (normStr o) 0 s.sales).map (fun i => (i, 129))).Nodup
      refine List.Nodup.append h.1 ?_ ?_
      · refine List.Nodup.map ?_ ?_
        · intro a b hab
          exact (Prod.mk.injEq a 129 b 129).mp hab |>.1
        · exact ((matchedIdxs_pairwise (normStr o) s.sales 0).imp
            (fun hlt => Nat.ne_of_lt hlt))
      · intro a ha hb
        obtain ⟨j, hj, hpj⟩ := List.mem_map.mp hb
        obtain ⟨r, hr, hj1, hjnorm⟩ := matchedIdxs_mem (normStr o) s.sales 0 j hj
        rw [Nat.sub_zero] at hr
        have hdza : dzNormAt s.sales a.1 ∉ O := h.2 a ha
        apply hdza
        rw [← hpj]
        show dzNormAt s.sales j ∈ O
        unfold dzNormAt
        rw [hr, Option.some_bind, hjnorm]
        exact hold
    · intro p hp
      show dzNormAt (rewriteDZ (normStr o) n 0 s.sales) p.1 ∉ O
      rcases List.mem_append.mp hp with hpo | hpn
      · rcases dzNormAt_rewriteDZ s.sales o n p.1 with hc | ⟨hc, -, -⟩
        · rw [hc]; exact h.2 p hpo
        · rw [hc]; exact hnew
      · obtain ⟨j, hj, hpj⟩ := List.mem_map.mp hpn
        obtain ⟨r, hr, hj1, hjnorm⟩ := matchedIdxs_mem (normStr o) s.sales 0 j hj
        rw [Nat.sub_zero] at hr
        rw [← hpj]
        show dzNormAt (rewriteDZ (normStr o) n 0 s.sales) j ∉ O
        have hgx : dzNormAt (rewriteDZ (normStr o) n 0 s.sales) j = normStr n := by
          unfold dzNormAt
          rw [rewriteDZ_get? (normStr o) n s.sales 0 j, hr]
          simp only [Option.map_some',
            if_pos (⟨by omega, hjnorm⟩ : 1 ≤ 0 + j ∧ normalizeMaterialCode r.dz = normStr o),
            Option.some_bind]
          rfl
        rw [hgx]
        exact hnew

theorem foldPasses_trackInv (O : List String) (todo : List (String × String))
    (hold : ∀ p ∈ todo, normStr p.1 ∈ O) (hnew : ∀ p ∈ todo, normStr p.2 ∉ O) :
    ∀ s : ProcState, TrackInv O s →
      TrackInv O (todo.foldl (fun s q => replacePass s q.1 q.2) s) := by
  induction todo with
  | nil => intro s h; exact h
  | cons q rest ih =>
    intro s h
    rw [List.foldl_cons]
    exact ih (fun p hp => hold p (List.mem_cons_of_mem q hp))
      (fun p hp => hnew p (List.mem_cons_of_mem q hp))
      (replacePass s q.1 q.2)
      (replacePass_trackInv O s q.1 q.2 (hold q (List.mem_cons_self q rest))
        (hnew q (List.mem_cons_self q rest)) h)

/-- C2 (amended). The Change Tracker holds no duplicate pair after a
complete run provided no mapping pair's normalized new code coincides
with any pair's normalized old code. Phases 2 and 3 check membership
before appending, so they never duplicate an entry; phase 1 appends
unconditionally but under the separation hypothesis no two of its passes
touch the same cell (a rewritten cell carries a new code, which no later
pass matches). Without the separation hypothesis a chained mapping
records the same cell twice — see the counterexample. -/
theorem spec_c2_amended (m : List (String × String)) (stock : List StockRow) (st : ProcState)
    (hsep : ∀ p ∈ m, normStr p.2 ∉ m.map (fun q => normStr q.1)) :
    (processSynchronization m stock st).modified.Nodup := by
  cases m with
  | nil => exact List.nodup_nil
  | cons p0 rest =>
    show (syncBatchNumbers (p0 :: rest) stock
      (syncAuxiliaryAttributes (p0 :: rest) stock
        (replaceMaterialCodes (p0 :: rest)
          { sales := st.sales, modified := [], warns := [] }))).modified.Nodup
    apply syncBatch_nodup
    apply syncAux_nodup
    have hinv : TrackInv ((p0 :: rest).map (fun q => normStr q.1))
        (replaceMaterialCodes (p0 :: rest)
          { sales := st.sales, modified := [], warns := [] }) := by
      unfold replaceMaterialCodes
      apply foldPasses_trackInv
      · exact fun p hp => List.mem_map.mpr ⟨p, hp, rfl⟩
      · exact hsep
      · exact ⟨List.nodup_nil, fun p hp => absurd hp (List.not_mem_nil p)⟩
    exact hinv.1

/-- C2 witness: the amended theorem applied to a separated one-pair
mapping over a ledger and snapshot that exercise all three phases. -/
theorem spec_c2_witness :
    (processSynchronization w2Mapping w2Stock chainState).modified.Nodup :=
  spec_c2_amended w2Mapping w2Stock chainState (by decide)
